/-
Verification of the dependency-extraction engine in
scripts/generate_ast_dependencies.py.

The Python module is shallowly embedded: the regex fallback extractors are
modelled as character-level scanners faithful to the Python regular
expressions (re.MULTILINE anchoring included), the per-language grammar
(Tree-sitter) pass is an external library and is therefore a parameter
giving, for each language id and file content, either the list of
(capture-name, node-text) pairs or an exception; the wrapper logic around
that pass (exception handling, empty-result fallback, quote stripping,
dispatch) is translated from the source, as are the graph model, the
orchestrator step and the summary aggregator.
-/
import Mathlib

namespace GenAstDeps

/-- Python re module whitespace class (ASCII range, which covers all inputs
considered here): space, tab, newline, carriage return, vertical tab,
form feed. -/
def isWs (c : Char) : Bool :=
  c = ' ' || c = '\t' || c = '\n' || c = '\r' || c = Char.ofNat 11 || c = Char.ofNat 12

/-- Python re word-character class (ASCII range): letters, digits, underscore. -/
def isWordChar (c : Char) : Bool :=
  ('a' ≤ c && c ≤ 'z') || ('A' ≤ c && c ≤ 'Z') || ('0' ≤ c && c ≤ '9') || c = '_'

/-- Character class for the python-import regex group: word characters or dot. -/
def isWordDot (c : Char) : Bool := isWordChar c || c = '.'

/-- Character class for the perl-use regex group: word characters or colon. -/
def isWordColon (c : Char) : Bool := isWordChar c || c = ':'

/-- The double-quote character. -/
def dq : Char := '"'

/-- The single-quote character. -/
def sq : Char := Char.ofNat 39

/-- Match a literal character sequence at the head of the input, returning
the remainder on success. -/
def expects (lit : List Char) (cs : List Char) : Option (List Char) :=
  if lit.isPrefixOf cs then some (cs.drop lit.length) else none

/-- Scanner for a MULTILINE-anchored regex: a match is attempted exactly at
positions following a newline (or position 0); on success scanning resumes
after the consumed text, otherwise it advances one character.  This mirrors
re.finditer over a pattern anchored with a leading caret.  Fuel bounds the
recursion; it is instantiated with the input length plus one, which is
never exhausted because every step consumes at least one character. -/
def lineScan (try1 : List Char → Option (String × List Char)) :
    Nat → Bool → List Char → List String
  | 0, _, _ => []
  | _ + 1, _, [] => []
  | fuel + 1, atStart, c :: rest =>
    if atStart then
      match try1 (c :: rest) with
      | some (g, rest2) => g :: lineScan try1 fuel false rest2
      | none => lineScan try1 fuel (c = '\n') rest
    else lineScan try1 fuel (c = '\n') rest

/-- Scanner for an unanchored regex: a match is attempted at every position,
as re.finditer does; on success scanning resumes after the consumed text. -/
def posScan (try1 : List Char → Option (String × List Char)) :
    Nat → List Char → List String
  | 0, _ => []
  | _ + 1, [] => []
  | fuel + 1, c :: rest =>
    match try1 (c :: rest) with
    | some (g, rest2) => g :: posScan try1 fuel rest2
    | none => posScan try1 fuel rest

/-- One match attempt of the C-include fallback regex
(whitespace, hash, whitespace, the word include, whitespace, an opening
angle bracket or double quote, a non-empty run of characters other than
closing bracket or quote — the captured group — and a closing bracket or
quote). -/
def tryCInclude (cs : List Char) : Option (String × List Char) :=
  let cs1 := cs.dropWhile isWs
  match cs1 with
  | '#' :: cs2 =>
    let cs3 := cs2.dropWhile isWs
    match expects "include".data cs3 with
    | none => none
    | some cs4 =>
      let ws := cs4.takeWhile isWs
      let cs5 := cs4.dropWhile isWs
      if ws.isEmpty then none else
      match cs5 with
      | c0 :: cs6 =>
        if c0 = '<' || c0 = dq then
          let path := cs6.takeWhile (fun c => !(c = '>' || c = dq))
          let cs7 := cs6.dropWhile (fun c => !(c = '>' || c = dq))
          if path.isEmpty then none else
          match cs7 with
          | c1 :: cs8 => if c1 = '>' || c1 = dq then some (String.mk path, cs8) else none
          | [] => none
        else none
      | [] => none
  | _ => none

/-- One match attempt of the assembly-include fallback regex: whitespace, a
percent-include or dot-include directive, whitespace, an optionally quoted
non-empty run of characters that are neither whitespace nor quotes — the
captured group — closed by the same quote when one opened it.  When the
candidate path starts with a quote character the unquoted alternative of
the regex cannot match either (the path class excludes quotes), so failing
outright is faithful to the backtracking regex. -/
def tryAsmInclude (cs : List Char) : Option (String × List Char) :=
  let cs1 := cs.dropWhile isWs
  let afterDir := match expects "%include".data cs1 with
    | some r => some r
    | none => expects ".include".data cs1
  match afterDir with
  | none => none
  | some cs2 =>
    let ws := cs2.takeWhile isWs
    let cs3 := cs2.dropWhile isWs
    if ws.isEmpty then none else
    match cs3 with
    | [] => none
    | q :: rest =>
      if q = dq || q = sq then
        let path := rest.takeWhile (fun c => !(isWs c || c = dq || c = sq))
        let rest2 := rest.dropWhile (fun c => !(isWs c || c = dq || c = sq))
        if path.isEmpty then none else
        match rest2 with
        | c1 :: rest3 => if c1 = q then some (String.mk path, rest3) else none
        | [] => none
      else
        let path := cs3.takeWhile (fun c => !(isWs c || c = dq || c = sq))
        let rest2 := cs3.dropWhile (fun c => !(isWs c || c = dq || c = sq))
        if path.isEmpty then none else some (String.mk path, rest2)

/-- One match attempt of the python-import fallback regex: whitespace, then
either a from-import form (from, whitespace, dotted module name — the
captured group — whitespace, the word import) or a plain import form
(import, whitespace, dotted module name — the captured group).  The
alternatives never overlap on their leading literal, so trying them in
order is faithful to the regex alternation. -/
def tryPyImport (cs : List Char) : Option (String × List Char) :=
  let cs1 := cs.dropWhile isWs
  let fromBranch :=
    match expects "from".data cs1 with
    | none => none
    | some a =>
      let ws := a.takeWhile isWs
      let a1 := a.dropWhile isWs
      if ws.isEmpty then none else
      let m := a1.takeWhile isWordDot
      let a2 := a1.dropWhile isWordDot
      if m.isEmpty then none else
      let ws2 := a2.takeWhile isWs
      let a3 := a2.dropWhile isWs
      if ws2.isEmpty then none else
      match expects "import".data a3 with
      | some a4 => some (String.mk m, a4)
      | none => none
  match fromBranch with
  | some r => some r
  | none =>
    match expects "import".data cs1 with
    | none => none
    | some b =>
      let ws := b.takeWhile isWs
      let b1 := b.dropWhile isWs
      if ws.isEmpty then none else
      let m := b1.takeWhile isWordDot
      let b2 := b1.dropWhile isWordDot
      if m.isEmpty then none else some (String.mk m, b2)

/-- One match attempt of the bash-source fallback regex: whitespace, either
the word source or a lone dot, whitespace, then a non-empty run of
non-whitespace characters — the captured group. -/
def tryBashSource (cs : List Char) : Option (String × List Char) :=
  let cs1 := cs.dropWhile isWs
  let afterDir := match expects "source".data cs1 with
    | some r => some r
    | none => expects ".".data cs1
  match afterDir with
  | none => none
  | some cs2 =>
    let ws := cs2.takeWhile isWs
    let cs3 := cs2.dropWhile isWs
    if ws.isEmpty then none else
    let path := cs3.takeWhile (fun c => !isWs c)
    let cs4 := cs3.dropWhile (fun c => !isWs c)
    if path.isEmpty then none else some (String.mk path, cs4)

/-- One match attempt of the perl-use fallback regex: whitespace, the word
use, whitespace, then a non-empty run of word or colon characters — the
captured group. -/
def tryPerlUse (cs : List Char) : Option (String × List Char) :=
  let cs1 := cs.dropWhile isWs
  match expects "use".data cs1 with
  | none => none
  | some cs2 =>
    let ws := cs2.takeWhile isWs
    let cs3 := cs2.dropWhile isWs
    if ws.isEmpty then none else
    let m := cs3.takeWhile isWordColon
    let cs4 := cs3.dropWhile isWordColon
    if m.isEmpty then none else some (String.mk m, cs4)

/-- One match attempt of the lua-require fallback regex: the word require,
optional whitespace, an opening parenthesis, optional whitespace, a quote,
a non-empty run of non-quote characters — the captured group — a quote,
optional whitespace and a closing parenthesis. -/
def tryLuaRequire (cs : List Char) : Option (String × List Char) :=
  match expects "require".data cs with
  | none => none
  | some cs1 =>
    let cs2 := cs1.dropWhile isWs
    match cs2 with
    | '(' :: cs3 =>
      let cs4 := cs3.dropWhile isWs
      match cs4 with
      | q0 :: cs5 =>
        if q0 = dq || q0 = sq then
          let m := cs5.takeWhile (fun c => !(c = dq || c = sq))
          let cs6 := cs5.dropWhile (fun c => !(c = dq || c = sq))
          if m.isEmpty then none else
          match cs6 with
          | q1 :: cs7 =>
            if q1 = dq || q1 = sq then
              let cs8 := cs7.dropWhile isWs
              match cs8 with
              | ')' :: cs9 => some (String.mk m, cs9)
              | _ => none
            else none
          | [] => none
        else none
      | [] => none
    | _ => none

/-- Fallback extractor for assembly-style include directives. -/
def regex_asm_includes (s : String) : List String :=
  lineScan tryAsmInclude (s.data.length + 1) true s.data

/-- Fallback extractor for C-preprocessor include directives. -/
def regex_c_includes (s : String) : List String :=
  lineScan tryCInclude (s.data.length + 1) true s.data

/-- Fallback extractor for lua require calls. -/
def regex_lua_requires (s : String) : List String :=
  posScan tryLuaRequire (s.data.length + 1) s.data

/-- Fallback extractor for perl use statements. -/
def regex_perl_uses (s : String) : List String :=
  lineScan tryPerlUse (s.data.length + 1) true s.data

/-- Fallback extractor for python import statements. -/
def regex_python_imports (s : String) : List String :=
  lineScan tryPyImport (s.data.length + 1) true s.data

/-- Fallback extractor for bash source commands. -/
def regex_bash_sources (s : String) : List String :=
  lineScan tryBashSource (s.data.length + 1) true s.data

/-- Remove surrounding quotes or angle brackets from a captured token:
when the token has length at least two, starts with a double quote, single
quote or opening angle bracket, and ends with the same character or a
closing angle bracket, and moreover the pair is matching angle brackets or
two identical characters, the first and last characters are dropped. -/
def strip_quotes (raw : String) : String :=
  let cs := raw.data
  if 2 ≤ cs.length then
    let c0 := cs.headD ' '
    let cl := cs.getLastD ' '
    if (c0 = dq || c0 = sq || c0 = '<') && (cl = c0 || cl = '>') then
      if (c0 = '<' && cl = '>') || c0 = cl then String.mk (cs.drop 1).dropLast
      else raw
    else raw
  else raw

/-- Insert a target into a reference set, represented as a duplicate-free
list; python set insertion never duplicates an element already present. -/
def insertTarget : List String → String → List String
  | [], t => [t]
  | x :: xs, t => if x = t then x :: xs else x :: insertTarget xs t

/-- Record one edge in the edge mapping, an insertion-ordered association
list from source path to reference set: the first entry with the given
source is extended, a missing source is appended at the end, exactly as a
python defaultdict of sets behaves. -/
def addEdge : List (String × List String) → String → String → List (String × List String)
  | [], s, t => [(s, [t])]
  | (k, ts) :: rest, s, t =>
    if k = s then (k, insertTarget ts t) :: rest else (k, ts) :: addEdge rest s t

/-- The reference set currently recorded for a source (empty when absent). -/
def refsOfE : List (String × List String) → String → List String
  | [], _ => []
  | (k, ts) :: rest, s => if k = s then ts else refsOfE rest s

/-- Insert a string into a sorted list of strings (ascending). -/
def insertStr (s : String) : List String → List String
  | [] => [s]
  | x :: xs => if s ≤ x then s :: x :: xs else x :: insertStr s xs

/-- Sort a list of strings ascending, modelling python sorted on a set of
strings. -/
def sortStrs : List String → List String
  | [] => []
  | x :: xs => insertStr x (sortStrs xs)

/-- In-memory directed dependency graph: insertion-ordered mapping from
source path to its set of reference strings (the set is represented as a
duplicate-free list; python set iteration order is irrelevant because every
observation of the set — its size and its sorted form — is order
insensitive). -/
structure DependencyGraph where
  edges : List (String × List String)
deriving DecidableEq, Repr

/-- The loop body of DependencyGraph.add: each target in turn is inserted
into the source's reference set unless it is the empty string. -/
def addLoop (source : String) : List (String × List String) → List String →
    List (String × List String)
  | e, [] => e
  | e, t :: ts => addLoop source (if t = "" then e else addEdge e source t) ts

/-- DependencyGraph.add: a no-op when the target sequence is empty,
otherwise every non-empty target string is inserted into the source's
reference set; empty target strings are skipped, and the source entry is
only created by the first inserted target. -/
def DependencyGraph.add (g : DependencyGraph) (source : String)
    (targets : List String) : DependencyGraph :=
  if targets.isEmpty then g
  else ⟨addLoop source g.edges targets⟩

/-- DependencyGraph.to_serializable: the mapping with each reference set
sorted. -/
def DependencyGraph.to_serializable (g : DependencyGraph) : List (String × List String) :=
  g.edges.map (fun p => (p.1, sortStrs p.2))

/-- DependencyGraph.edge_count: total number of directed edges. -/
def DependencyGraph.edge_count (g : DependencyGraph) : Nat :=
  (g.edges.map (fun p => p.2.length)).sum

/-- LANGUAGE_MAP: supported file extensions mapped to language identifiers. -/
def LANGUAGE_MAP : List (String × String) :=
  [(".c", "c"), (".h", "c"), (".cpp", "cpp"), (".hpp", "cpp"), (".cppm", "cpp"),
   (".S", "c"), (".py", "python"), (".sh", "bash"), (".lua", "lua"), (".pl", "perl")]

/-- detect_language: the language id registered for a suffix, if any. -/
def detect_language (suffix : String) : Option String :=
  (LANGUAGE_MAP.find? (fun p => p.1 = suffix)).map (fun p => p.2)

/-- The keys of the QUERY_DISPATCH table. -/
def inQueryDispatch (lid : String) : Bool :=
  lid = "c" || lid = "cpp" || lid = "python" || lid = "bash" || lid = "lua" || lid = "perl"

/-- The grammar pass is the external Tree-sitter library: for a language id
and a file content it yields either the captured (capture-name, node-text)
pairs of the structural query, or an exception (query compilation,
capture traversal and node-text decoding can all raise). -/
def Grammar : Type := String → String → Except Unit (List (String × String))

/-- _query_c_includes: run the grammar query for preprocessor includes and
strip quotes or brackets from each captured path; when the grammar yields
no capture, extend with the C regex fallback.  No part of the grammar pass
is guarded by an exception handler, so a grammar exception propagates. -/
def query_c_includes (prim : String → Except Unit (List (String × String)))
    (src : String) : Except Unit (List String) :=
  match prim src with
  | .error e => .error e
  | .ok caps =>
    let includes := (caps.filter (fun p => p.1 = "include")).map (fun p => strip_quotes p.2)
    .ok (if includes.isEmpty then includes ++ regex_c_includes src else includes)

/-- _query_python_imports: the grammar query phase is wrapped in an
exception handler whose handler substitutes the regex fallback; afterwards
an empty module list is extended with the regex fallback. -/
def query_python_imports (prim : String → Except Unit (List (String × String)))
    (src : String) : Except Unit (List String) :=
  let modules := match prim src with
    | .ok caps => (caps.filter (fun p => p.1 = "module")).map (fun p => p.2)
    | .error _ => regex_python_imports src
  .ok (if modules.isEmpty then modules ++ regex_python_imports src else modules)

/-- _query_bash_sources: same two-tier shape as the python extractor. -/
def query_bash_sources (prim : String → Except Unit (List (String × String)))
    (src : String) : Except Unit (List String) :=
  let paths := match prim src with
    | .ok caps => (caps.filter (fun p => p.1 = "path")).map (fun p => p.2)
    | .error _ => regex_bash_sources src
  .ok (if paths.isEmpty then paths ++ regex_bash_sources src else paths)

/-- _query_lua_requires: same two-tier shape, with quote stripping applied
to the captured string nodes. -/
def query_lua_requires (prim : String → Except Unit (List (String × String)))
    (src : String) : Except Unit (List String) :=
  let modules := match prim src with
    | .ok caps => (caps.filter (fun p => p.1 = "mod")).map (fun p => strip_quotes p.2)
    | .error _ => regex_lua_requires src
  .ok (if modules.isEmpty then modules ++ regex_lua_requires src else modules)

/-- _query_perl_uses: same two-tier shape as the python extractor. -/
def query_perl_uses (prim : String → Except Unit (List (String × String)))
    (src : String) : Except Unit (List String) :=
  let modules := match prim src with
    | .ok caps => (caps.filter (fun p => p.1 = "module")).map (fun p => p.2)
    | .error _ => regex_perl_uses src
  .ok (if modules.isEmpty then modules ++ regex_perl_uses src else modules)

/-- QUERY_DISPATCH: map the language id to its grammar-first extractor. -/
def runQuery (prim : Grammar) (lid : String) (src : String) : Except Unit (List String) :=
  if lid = "c" || lid = "cpp" then query_c_includes (prim lid) src
  else if lid = "python" then query_python_imports (prim lid) src
  else if lid = "bash" then query_bash_sources (prim lid) src
  else if lid = "lua" then query_lua_requires (prim lid) src
  else if lid = "perl" then query_perl_uses (prim lid) src
  else .ok []

/-- analyze_file: classify the file by suffix; unsupported files yield no
language and no dependencies; a language listed in QUERY_DISPATCH is
extracted by its two-tier strategy (whose exception, if any, propagates to
the caller); otherwise a file with the assembly suffix is scanned by the
assembly regex fallback; otherwise no dependencies are produced. -/
def analyze_file (prim : Grammar) (suffix content : String) :
    Except Unit (Option String × List String) :=
  match detect_language suffix with
  | none => .ok (none, [])
  | some lid =>
    if inQueryDispatch lid then
      match runQuery prim lid content with
      | .error e => .error e
      | .ok deps => .ok (some lid, deps)
    else if suffix = ".S" then .ok (some lid, regex_asm_includes content)
    else .ok (some lid, [])

/-- A scanned file: path relative to the scan root, its extension, and its
content. -/
structure SrcFile where
  rel : String
  suffix : String
  content : String
deriving DecidableEq, Repr

/-- Increment a counter key, modelling collections.Counter: the first entry
with the key is incremented, a missing key is appended with count one. -/
def bumpCount : List (String × Nat) → String → List (String × Nat)
  | [], lid => [(lid, 1)]
  | (k, n) :: rest, lid =>
    if k = lid then (k, n + 1) :: rest else (k, n) :: bumpCount rest lid

/-- The count stored for a key (zero when absent). -/
def countsOf : List (String × Nat) → String → Nat
  | [], _ => 0
  | (k, n) :: rest, l => if k = l then n else countsOf rest l

/-- Update the per-language graph table, modelling a defaultdict of
DependencyGraph: indexing creates a fresh empty graph for a missing
language (appended in encounter order) before add runs on it. -/
def updateGraphs : List (String × DependencyGraph) → String → String → List String →
    List (String × DependencyGraph)
  | [], lid, rel, deps => [(lid, DependencyGraph.add ⟨[]⟩ rel deps)]
  | (k, g) :: rest, lid, rel, deps =>
    if k = lid then (k, g.add rel deps) :: rest
    else (k, g) :: updateGraphs rest lid rel deps

/-- Orchestrator state: the per-language graphs and the per-language file
counter. -/
structure BuildState where
  graphs : List (String × DependencyGraph)
  counts : List (String × Nat)
deriving DecidableEq, Repr

/-- One orchestrator step over a single file: an unsupported file changes
nothing; an extraction exception propagates; otherwise the references are
recorded under the file's relative path and the language's file tally is
incremented, regardless of whether any references were found. -/
def buildStep (prim : Grammar) (st : BuildState) (f : SrcFile) : Except Unit BuildState :=
  match analyze_file prim f.suffix f.content with
  | .error e => .error e
  | .ok (none, _) => .ok st
  | .ok (some lid, deps) =>
    .ok ⟨updateGraphs st.graphs lid f.rel deps, bumpCount st.counts lid⟩

/-- build_dependency_graph: fold the orchestrator step over the eligible
files in visitation order, starting from empty graphs and counts. -/
def build_dependency_graph (prim : Grammar) : List SrcFile → BuildState → Except Unit BuildState
  | [], st => .ok st
  | f :: fs, st =>
    match buildStep prim st f with
    | .error e => .error e
    | .ok st' => build_dependency_graph prim fs st'

/-- Out-degree table of a graph, in source insertion order. -/
def degreeCounter (g : DependencyGraph) : List (String × Nat) :=
  g.edges.map (fun p => (p.1, p.2.length))

/-- Insert an entry into a list sorted by descending degree, after every
entry of greater or equal degree: the insertion point of a stable
descending sort. -/
def insertDegDesc (x : String × Nat) : List (String × Nat) → List (String × Nat)
  | [] => [x]
  | y :: ys => if x.2 ≤ y.2 then y :: insertDegDesc x ys else x :: y :: ys

/-- Stable sort by descending degree, modelling python sorted with a
reversed numeric key (python sorted is documented to be stable, equal
elements keeping their input order): proved sorted and tie-stable below. -/
def sortByDegDesc (l : List (String × Nat)) : List (String × Nat) :=
  l.foldl (fun acc x => insertDegDesc x acc) []

/-- The top-emitter list of a graph: sources sorted by descending
out-degree, truncated to ten. -/
def topEmitters (g : DependencyGraph) : List (String × Nat) :=
  (sortByDegDesc (degreeCounter g)).take 10

/-- Per-language summary entry. -/
structure LangSummary where
  files : Nat
  edges : Nat
  top_emitters : List (String × Nat)
deriving DecidableEq, Repr

/-- Global totals of the summary. -/
structure Totals where
  languages : Nat
  files : Nat
  edges : Nat
deriving DecidableEq, Repr

/-- The aggregate summary. -/
structure Summary where
  languages : List (String × LangSummary)
  totals : Totals
deriving DecidableEq, Repr

/-- summarize_graphs: totals over all graphs and counts, plus one entry per
language holding its file count, edge count and top-emitter list. -/
def summarize_graphs (graphs : List (String × DependencyGraph))
    (counts : List (String × Nat)) : Summary :=
  { languages := graphs.map (fun p =>
      (p.1, { files := countsOf counts p.1
              edges := p.2.edge_count
              top_emitters := topEmitters p.2 })),
    totals := { languages := graphs.length
                files := (counts.map (fun p => p.2)).sum
                edges := (graphs.map (fun p => p.2.edge_count)).sum } }

/-- The graph states reachable from the empty graph by add calls. -/
inductive Reachable : DependencyGraph → Prop
  | empty : Reachable ⟨[]⟩
  | add (g : DependencyGraph) (s : String) (ts : List String) :
      Reachable g → Reachable (g.add s ts)

theorem mem_insertTarget {t' t : String} :
    ∀ {l : List String}, t' ∈ insertTarget l t ↔ t' ∈ l ∨ t' = t := by
  intro l
  induction l with
  | nil => simp [insertTarget]
  | cons x xs ih =>
    by_cases hx : x = t
    · subst hx
      simp [insertTarget]
      intro h
      exact .inl h
    · simp only [insertTarget, if_neg hx, List.mem_cons, ih]
      tauto

theorem insertTarget_eq_of_mem {t : String} :
    ∀ {l : List String}, t ∈ l → insertTarget l t = l := by
  intro l
  induction l with
  | nil => intro h; cases h
  | cons x xs ih =>
    intro h
    by_cases hx : x = t
    · simp [insertTarget, hx]
    · rcases List.mem_cons.mp h with h1 | h2
      · exact absurd h1.symm hx
      · simp [insertTarget, hx, ih h2]

theorem insertTarget_ne_nil {t : String} {l : List String} :
    insertTarget l t ≠ [] := by
  cases l with
  | nil => simp [insertTarget]
  | cons x xs =>
    by_cases hx : x = t <;> simp [insertTarget, hx]

theorem nodup_insertTarget {t : String} :
    ∀ {l : List String}, l.Nodup → (insertTarget l t).Nodup := by
  intro l
  induction l with
  | nil => intro _; simp [insertTarget]
  | cons x xs ih =>
    intro h
    rcases List.nodup_cons.mp h with ⟨hx, hxs⟩
    by_cases hxt : x = t
    · simpa [insertTarget, hxt] using h
    · simp only [insertTarget, if_neg hxt]
      refine List.nodup_cons.mpr ⟨?_, ih hxs⟩
      intro hmem
      rcases mem_insertTarget.mp hmem with h1 | h2
      · exact hx h1
      · exact hxt h2

theorem refsOfE_addEdge_self {s t : String} :
    ∀ {e : List (String × List String)},
      refsOfE (addEdge e s t) s = insertTarget (refsOfE e s) t := by
  intro e
  induction e with
  | nil => simp [addEdge, refsOfE, insertTarget]
  | cons p rest ih =>
    obtain ⟨k, ts⟩ := p
    by_cases hk : k = s
    · simp [addEdge, refsOfE, hk]
    · simp [addEdge, refsOfE, hk, ih]

theorem addEdge_eq_of_mem {s t : String} :
    ∀ {e : List (String × List String)}, t ∈ refsOfE e s → addEdge e s t = e := by
  intro e
  induction e with
  | nil => intro h; simp [refsOfE] at h
  | cons p rest ih =>
    obtain ⟨k, ts⟩ := p
    intro h
    by_cases hk : k = s
    · subst hk
      have h' : t ∈ ts := by simpa [refsOfE] using h
      simp [addEdge, insertTarget_eq_of_mem h']
    · simp only [refsOfE, if_neg hk] at h
      simp [addEdge, hk, ih h]

theorem mem_refsOfE_addLoop_mono {s t' : String} :
    ∀ (ts : List String) (e : List (String × List String)),
      t' ∈ refsOfE e s → t' ∈ refsOfE (addLoop s e ts) s := by
  intro ts
  induction ts with
  | nil => intro e h; simpa [addLoop] using h
  | cons t ts ih =>
    intro e h
    simp only [addLoop]
    apply ih
    by_cases ht : t = ""
    · simpa [ht] using h
    · simp only [if_neg ht, refsOfE_addEdge_self]
      exact mem_insertTarget.mpr (.inl h)

theorem mem_refsOfE_addLoop {s t : String} (hne : t ≠ "") :
    ∀ (ts : List String) (e : List (String × List String)),
      t ∈ ts → t ∈ refsOfE (addLoop s e ts) s := by
  intro ts
  induction ts with
  | nil => intro e h; cases h
  | cons t0 ts ih =>
    intro e h
    rcases List.mem_cons.mp h with h1 | h2
    · subst h1
      simp only [addLoop, if_neg hne]
      apply mem_refsOfE_addLoop_mono
      rw [refsOfE_addEdge_self]
      exact mem_insertTarget.mpr (.inr rfl)
    · simp only [addLoop]
      exact ih _ h2

theorem addLoop_eq_of_forall_mem {s : String} :
    ∀ (ts : List String) (e : List (String × List String)),
      (∀ t ∈ ts, t ≠ "" → t ∈ refsOfE e s) → addLoop s e ts = e := by
  intro ts
  induction ts with
  | nil => intro e _; rfl
  | cons t ts ih =>
    intro e h
    simp only [addLoop]
    by_cases ht : t = ""
    · rw [if_pos ht]
      exact ih e (fun u hu => h u (List.mem_cons_of_mem _ hu))
    · rw [if_neg ht, addEdge_eq_of_mem (h t (List.mem_cons_self _ _) ht)]
      exact ih e (fun u hu => h u (List.mem_cons_of_mem _ hu))

/-- The per-entry well-formedness of an edge mapping: every recorded source
has a non-empty, duplicate-free reference set that does not contain the
empty string. -/
def GoodE (e : List (String × List String)) : Prop :=
  ∀ p ∈ e, p.2 ≠ [] ∧ p.2.Nodup ∧ "" ∉ p.2

theorem goodE_addEdge {s t : String} (ht : t ≠ "") :
    ∀ {e : List (String × List String)}, GoodE e → GoodE (addEdge e s t) := by
  intro e
  induction e with
  | nil =>
    intro _ p hp
    simp only [addEdge, List.mem_singleton] at hp
    subst hp
    refine ⟨by simp, by simp, by simp [Ne.symm ht]⟩
  | cons q rest ih =>
    obtain ⟨k, ts⟩ := q
    intro hg p hp
    have hts := hg (k, ts) (List.mem_cons_self _ _)
    by_cases hk : k = s
    · simp only [addEdge, if_pos hk] at hp
      rcases List.mem_cons.mp hp with h1 | h2
      · subst h1
        refine ⟨insertTarget_ne_nil, nodup_insertTarget hts.2.1, ?_⟩
        intro hmem
        rcases mem_insertTarget.mp hmem with hm | hm
        · exact hts.2.2 hm
        · exact ht hm.symm
      · exact hg p (List.mem_cons_of_mem _ h2)
    · simp only [addEdge, if_neg hk] at hp
      rcases List.mem_cons.mp hp with h1 | h2
      · subst h1; exact hts
      · exact ih (fun q hq => hg q (List.mem_cons_of_mem _ hq)) p h2

theorem goodE_addLoop {s : String} :
    ∀ (ts : List String) (e : List (String × List String)),
      GoodE e → GoodE (addLoop s e ts) := by
  intro ts
  induction ts with
  | nil => intro e h; exact h
  | cons t ts ih =>
    intro e h
    simp only [addLoop]
    by_cases ht : t = ""
    · rw [if_pos ht]; exact ih e h
    · rw [if_neg ht]; exact ih _ (goodE_addEdge ht h)

theorem reachable_goodE {g : DependencyGraph} (h : Reachable g) : GoodE g.edges := by
  induction h with
  | empty => intro p hp; cases hp
  | add g s ts _ ih =>
    unfold DependencyGraph.add
    by_cases hts : ts.isEmpty
    · simpa [hts] using ih
    · simpa [hts] using goodE_addLoop ts g.edges ih

theorem nodup_refsOfE_of_goodE {s : String} :
    ∀ {e : List (String × List String)}, GoodE e → (refsOfE e s).Nodup := by
  intro e
  induction e with
  | nil => intro _; simp [refsOfE]
  | cons p rest ih =>
    obtain ⟨k, ts⟩ := p
    intro hg
    by_cases hk : k = s
    · simpa [refsOfE, hk] using (hg (k, ts) (List.mem_cons_self _ _)).2.1
    · simpa [refsOfE, hk] using ih (fun q hq => hg q (List.mem_cons_of_mem _ hq))

theorem length_insertStr (s : String) :
    ∀ (l : List String), (insertStr s l).length = l.length + 1 := by
  intro l
  induction l with
  | nil => rfl
  | cons x xs ih =>
    by_cases h : s ≤ x <;> simp [insertStr, h, ih]

theorem length_sortStrs : ∀ (l : List String), (sortStrs l).length = l.length := by
  intro l
  induction l with
  | nil => rfl
  | cons x xs ih => simp [sortStrs, length_insertStr, ih]

/-- C4: edge_count equals the sum of the lengths of the per-source
reference lists produced by to_serializable — in every graph state,
reachable or not, because sorting a reference set preserves its length. -/
theorem edge_count_eq_serializable_sum (g : DependencyGraph) :
    g.edge_count = ((g.to_serializable).map (fun p => p.2.length)).sum := by
  unfold DependencyGraph.edge_count DependencyGraph.to_serializable
  rw [List.map_map]
  congr 1
  apply List.map_congr_left
  intro p _
  simp [length_sortStrs]

/-- C5 counterexample: adding a sequence holding the same reference string
twice does not always leave exactly one copy of it in the source's
reference set — for the empty reference string both occurrences are
dropped and no entry is created at all, so the count is zero. -/
theorem add_duplicate_empty_string_not_once :
    ¬ List.count "" (refsOfE ((DependencyGraph.add ⟨[]⟩ "f.c" ["", ""]).edges) "f.c") = 1 := by
  decide

/-- C5 (amended): add is idempotent — calling it twice with the same
arguments leaves the graph exactly as one call does; add with an empty
reference sequence is a no-op; and a sequence containing the same
non-empty reference string twice results in exactly one copy of that
reference in the source's set (an empty reference string is dropped
instead). -/
theorem add_idempotent_empty_noop_dedup :
    (∀ (g : DependencyGraph) (s : String) (ts : List String),
      (g.add s ts).add s ts = g.add s ts) ∧
    (∀ (g : DependencyGraph) (s : String), g.add s [] = g) ∧
    (∀ (g : DependencyGraph) (s : String) (ts : List String) (r : String),
      Reachable g → r ≠ "" → r ∈ ts →
      List.count r (refsOfE ((g.add s ts).edges) s) = 1) := by
  refine ⟨?_, ?_, ?_⟩
  · intro g s ts
    cases hts : ts.isEmpty with
    | true => simp [DependencyGraph.add, hts]
    | false =>
      simp only [DependencyGraph.add, hts, Bool.false_eq_true, if_false]
      congr 1
      exact addLoop_eq_of_forall_mem ts _
        (fun t htm htne => mem_refsOfE_addLoop htne ts g.edges htm)
  · intro g s
    simp [DependencyGraph.add]
  · intro g s ts r hreach hrne hrmem
    have hne : ¬ ts.isEmpty := by
      cases ts with
      | nil => cases hrmem
      | cons a l => simp
    have hedges : (g.add s ts).edges = addLoop s g.edges ts := by
      simp [DependencyGraph.add, hne]
    rw [hedges]
    have hmem : r ∈ refsOfE (addLoop s g.edges ts) s :=
      mem_refsOfE_addLoop hrne ts g.edges hrmem
    have hgood : GoodE (addLoop s g.edges ts) :=
      goodE_addLoop ts g.edges (reachable_goodE hreach)
    exact List.count_eq_one_of_mem (nodup_refsOfE_of_goodE hgood) hmem

/-- C5 witness: on the empty graph, adding the duplicated non-empty
reference a.h for source f.c yields exactly one copy of a.h. -/
theorem add_dedup_witness :
    List.count "a.h"
      (refsOfE ((DependencyGraph.add ⟨[]⟩ "f.c" ["a.h", "a.h"]).edges) "f.c") = 1 :=
  add_idempotent_empty_noop_dedup.2.2 ⟨[]⟩ "f.c" ["a.h", "a.h"] "a.h"
    Reachable.empty (by decide) (by decide)

/-- C9: in every reachable graph state, every recorded source maps to a
non-empty reference set and no recorded reference is the empty string. -/
theorem reachable_no_empty_entries (g : DependencyGraph) (h : Reachable g) :
    ∀ p ∈ g.edges, p.2 ≠ [] ∧ "" ∉ p.2 := by
  intro p hp
  have := reachable_goodE h p hp
  exact ⟨this.1, this.2.2⟩

/-- C9 witness: a concrete reachable state — the empty graph after adding,
for source f.c, the references a.h and the empty string — where the single
recorded entry has a non-empty reference set free of the empty string. -/
theorem reachable_no_empty_entries_witness :
    ("f.c", ["a.h"]).2 ≠ [] ∧ "" ∉ ("f.c", ["a.h"]).2 :=
  reachable_no_empty_entries (DependencyGraph.add ⟨[]⟩ "f.c" ["a.h", ""])
    (Reachable.add _ _ _ Reachable.empty) ("f.c", ["a.h"]) (by decide)

/-- C1: contrary to the specified assembly-only regex tier, a file with the
assembly suffix is classified as language c, which is a QUERY_DISPATCH key,
so analyze_file always runs the C grammar primary (with the C include
regex as its fallback) and the assembly-directive branch of analyze_file is
unreachable.  On a file consisting of a dot-include directive the C
pipeline extracts nothing, while the assembly regex the claim prescribes
would extract the included path. -/
theorem asm_suffix_dispatches_to_c_grammar :
    (∀ (prim : Grammar) (content : String),
      analyze_file prim ".S" content =
        (query_c_includes (prim "c") content).map (fun deps => (some "c", deps))) ∧
    analyze_file (fun _ _ => .ok []) ".S" ".include \"macros.inc\"\n" = .ok (some "c", []) ∧
    regex_asm_includes ".include \"macros.inc\"\n" = ["macros.inc"] := by
  refine ⟨?_, rfl, by decide⟩
  intro prim content
  have hd : detect_language ".S" = some "c" := by decide
  simp only [analyze_file, hd]
  have hq : inQueryDispatch "c" = true := by decide
  rw [if_pos hq]
  have hr : runQuery prim "c" content = query_c_includes (prim "c") content := by
    simp [runQuery]
  rw [hr]
  cases query_c_includes (prim "c") content <;> rfl

/-- C2: the grammar pass of the C-family extractor is not guarded by any
exception handler, so a grammar exception (for instance decoding an
include path that is not valid UTF-8) propagates to analyze_file's caller
instead of triggering the regex fallback; for the python extractor (and
likewise bash, lua, perl) the same exception is caught and the regex
fallback supplies the result. -/
theorem c_grammar_exception_propagates :
    (∀ content : String,
      analyze_file (fun _ _ => .error ()) ".c" content = .error ()) ∧
    (∀ content : String,
      analyze_file (fun _ _ => .error ()) ".py" content
        = .ok (some "python", regex_python_imports content)) ∧
    analyze_file (fun _ _ => .error ()) ".c" "#include \"x.h\"\n" = .error () ∧
    analyze_file (fun _ _ => .error ()) ".py" "import os\n" = .ok (some "python", ["os"]) := by
  refine ⟨?_, ?_, rfl, rfl⟩
  · intro content
    rfl
  · intro content
    have hd : detect_language ".py" = some "python" := by decide
    simp only [analyze_file, hd]
    have hq : inQueryDispatch "python" = true := by decide
    rw [if_pos hq]
    have hr : runQuery (fun _ _ => .error ()) "python" content
        = query_python_imports (fun _ => .error ()) content := by
      simp [runQuery]
    rw [hr]
    unfold query_python_imports
    cases he : (regex_python_imports content).isEmpty with
    | true =>
      have : regex_python_imports content = [] := by simpa using he
      simp [this]
    | false => simp [he]

/-- The C-family sample file of the claim: an include with quotes and an
include with angle brackets. -/
def cFamilySample : String := "#include \"a.h\"\n#include <b.h>\n"

/-- C6: for a C-family file consisting of a quoted include of a.h and a
bracketed include of b.h, extraction yields exactly a.h and b.h with the
delimiters stripped — whether the grammar primary captures the two path
nodes verbatim (as the preproc-include query does, delimiters included,
stripped afterwards by strip_quotes) or captures nothing, in which case
the C regex fallback extracts the same two references. -/
theorem c_family_include_extraction (prim : Grammar) (suffix lid : String)
    (h1 : detect_language suffix = some lid)
    (h2 : lid = "c" ∨ lid = "cpp")
    (h3 : prim lid cFamilySample = .ok [("include", "\"a.h\""), ("include", "<b.h>")] ∨
          prim lid cFamilySample = .ok []) :
    analyze_file prim suffix cFamilySample = .ok (some lid, ["a.h", "b.h"]) := by
  have hq : inQueryDispatch lid = true := by
    rcases h2 with h | h <;> simp [inQueryDispatch, h]
  have hr : runQuery prim lid cFamilySample = query_c_includes (prim lid) cFamilySample := by
    rcases h2 with h | h <;> simp [runQuery, h]
  have hv : query_c_includes (prim lid) cFamilySample = .ok ["a.h", "b.h"] := by
    rcases h3 with h | h <;> simp [query_c_includes, h] <;> decide
  simp only [analyze_file, h1, if_pos hq, hr, hv]

/-- C6 witness: with the grammar capturing the two include path nodes
verbatim, a dot-c file with the sample content extracts exactly a.h and
b.h. -/
theorem c_family_include_extraction_witness :
    analyze_file (fun _ _ => .ok [("include", "\"a.h\""), ("include", "<b.h>")])
      ".c" cFamilySample = .ok (some "c", ["a.h", "b.h"]) :=
  c_family_include_extraction _ ".c" "c" (by decide) (.inl rfl) (.inl rfl)

/-- C7: a file whose extension is not registered in the language map is
skipped by the orchestrator step — no graph changes, no count changes —
and classification is a pure, case-sensitive lookup of the extension
(detect_language takes only the suffix, so file content is never
inspected): the registered dot-c and dot-capital-S map to c while their
unregistered case variants and the empty extension are unsupported. -/
theorem unsupported_extension_skipped :
    (∀ (prim : Grammar) (st : BuildState) (f : SrcFile),
      detect_language f.suffix = none → buildStep prim st f = .ok st) ∧
    detect_language ".c" = some "c" ∧ detect_language ".C" = none ∧
    detect_language ".s" = none ∧ detect_language ".S" = some "c" ∧
    detect_language "" = none ∧ detect_language ".txt" = none := by
  refine ⟨?_, by decide, by decide, by decide, by decide, by decide, by decide⟩
  intro prim st f h
  simp [buildStep, analyze_file, h]

/-- C7 witness: a file with an unregistered extension — whose content even
contains include syntax — leaves the empty orchestrator state unchanged. -/
theorem unsupported_extension_skipped_witness :
    buildStep (fun _ _ => .ok []) ⟨[], []⟩ ⟨"notes.txt", ".txt", "#include <a>\n"⟩
      = .ok ⟨[], []⟩ :=
  unsupported_extension_skipped.1 _ _ _ (by decide)

theorem countsOf_bumpCount :
    ∀ (c : List (String × Nat)) (lid l : String),
      countsOf (bumpCount c lid) l = countsOf c l + (if l = lid then 1 else 0) := by
  intro c
  induction c with
  | nil =>
    intro lid l
    by_cases h : l = lid
    · simp [bumpCount, countsOf, h]
    · have h2 : ¬ lid = l := fun hh => h hh.symm
      simp [bumpCount, countsOf, h, h2]
  | cons p rest ih =>
    obtain ⟨k, n⟩ := p
    intro lid l
    by_cases hk : k = lid
    · subst hk
      by_cases hl : k = l
      · subst hl
        simp [bumpCount, countsOf]
      · have : ¬ l = k := fun h => hl h.symm
        simp [bumpCount, countsOf, hl, this]
    · by_cases hl : k = l
      · subst hl
        have : ¬ k = lid := hk
        simp [bumpCount, countsOf, this, fun h : k = lid => hk h]
      · simp [bumpCount, countsOf, hk, hl, ih]

/-- C8: whenever extraction for a file of a supported language returns a
dependency list — empty or not — the orchestrator step records it and
increments exactly that language's file tally by exactly one, leaving
every other language's tally unchanged. -/
theorem supported_file_counted_once (prim : Grammar) (st : BuildState) (f : SrcFile)
    (lid : String) (deps : List String)
    (h : analyze_file prim f.suffix f.content = .ok (some lid, deps)) :
    buildStep prim st f
        = .ok ⟨updateGraphs st.graphs lid f.rel deps, bumpCount st.counts lid⟩ ∧
    countsOf (bumpCount st.counts lid) lid = countsOf st.counts lid + 1 ∧
    ∀ l, l ≠ lid → countsOf (bumpCount st.counts lid) l = countsOf st.counts l := by
  refine ⟨by simp [buildStep, h], ?_, ?_⟩
  · simp [countsOf_bumpCount]
  · intro l hl
    simp [countsOf_bumpCount, hl]

/-- C8 witness: a python file with no imports at all — zero extracted
references — still bumps the python tally from zero to one. -/
theorem supported_file_counted_once_witness :
    buildStep (fun _ _ => .ok []) ⟨[], []⟩ ⟨"a.py", ".py", "x = 1\n"⟩
        = .ok ⟨[("python", ⟨[]⟩)], [("python", 1)]⟩ ∧
    countsOf (bumpCount [] "python") "python" = countsOf [] "python" + 1 := by
  have h := supported_file_counted_once (fun _ _ => .ok []) ⟨[], []⟩
    ⟨"a.py", ".py", "x = 1\n"⟩ "python" [] rfl
  exact ⟨h.1, h.2.1⟩

/-- Descending-degree ordering on degree-table entries. -/
def DegGE (a b : String × Nat) : Prop := b.2 ≤ a.2

theorem mem_insertDegDesc {z x : String × Nat} :
    ∀ {l : List (String × Nat)}, z ∈ insertDegDesc x l ↔ z = x ∨ z ∈ l := by
  intro l
  induction l with
  | nil => simp [insertDegDesc]
  | cons y ys ih =>
    by_cases h : x.2 ≤ y.2
    · simp only [insertDegDesc, if_pos h, List.mem_cons, ih]
      tauto
    · simp only [insertDegDesc, if_neg h, List.mem_cons]

theorem sorted_insertDegDesc {x : String × Nat} :
    ∀ {l : List (String × Nat)},
      List.Sorted DegGE l → List.Sorted DegGE (insertDegDesc x l) := by
  intro l
  induction l with
  | nil => intro _; simp [insertDegDesc, List.Sorted]
  | cons y ys ih =>
    intro h
    rcases List.sorted_cons.mp h with ⟨hy, hys⟩
    by_cases hcmp : x.2 ≤ y.2
    · simp only [insertDegDesc, if_pos hcmp]
      refine List.sorted_cons.mpr ⟨?_, ih hys⟩
      intro b hb
      rcases mem_insertDegDesc.mp hb with rfl | hbm
      · exact hcmp
      · exact hy b hbm
    · simp only [insertDegDesc, if_neg hcmp]
      refine List.sorted_cons.mpr ⟨?_, h⟩
      intro b hb
      have hyx : y.2 ≤ x.2 := Nat.le_of_lt (Nat.lt_of_not_le hcmp)
      rcases List.mem_cons.mp hb with rfl | hbm
      · exact hyx
      · exact Nat.le_trans (hy b hbm) hyx

theorem sorted_sortAux :
    ∀ (l acc : List (String × Nat)), List.Sorted DegGE acc →
      List.Sorted DegGE (l.foldl (fun acc x => insertDegDesc x acc) acc) := by
  intro l
  induction l with
  | nil => intro acc h; exact h
  | cons x xs ih =>
    intro acc h
    exact ih _ (sorted_insertDegDesc h)

theorem sorted_sortByDegDesc (l : List (String × Nat)) :
    List.Sorted DegGE (sortByDegDesc l) :=
  sorted_sortAux l [] (by simp)

theorem filter_insertDegDesc (d : Nat) {x : String × Nat} :
    ∀ {l : List (String × Nat)}, List.Sorted DegGE l →
      (insertDegDesc x l).filter (fun p => p.2 == d)
        = if x.2 = d then l.filter (fun p => p.2 == d) ++ [x]
          else l.filter (fun p => p.2 == d) := by
  intro l
  induction l with
  | nil =>
    intro _
    by_cases hx : x.2 = d <;> simp [insertDegDesc, hx]
  | cons y ys ih =>
    intro h
    rcases List.sorted_cons.mp h with ⟨hy, hys⟩
    by_cases hcmp : x.2 ≤ y.2
    · simp only [insertDegDesc, if_pos hcmp, List.filter_cons, ih hys]
      by_cases hx : x.2 = d <;> by_cases hyd : y.2 = d <;> simp [hx, hyd]
    · simp only [insertDegDesc, if_neg hcmp]
      have hlt : y.2 < x.2 := Nat.lt_of_not_le hcmp
      by_cases hx : x.2 = d
      · have hnil : (y :: ys).filter (fun p => p.2 == d) = [] := by
          apply List.filter_eq_nil_iff.mpr
          intro a ha
          have hb : a.2 ≤ y.2 := by
            rcases List.mem_cons.mp ha with rfl | hm
            · exact Nat.le_refl _
            · exact hy a hm
          have : a.2 ≠ d := by
            intro hd
            exact absurd (hd ▸ hb) (Nat.not_le_of_lt (hx ▸ hlt))
          simp [this]
        rw [List.filter_cons, hnil]
        simp [hx]
      · rw [List.filter_cons]
        simp [hx]

theorem filter_sortAux (d : Nat) :
    ∀ (l acc : List (String × Nat)), List.Sorted DegGE acc →
      (l.foldl (fun acc x => insertDegDesc x acc) acc).filter (fun p => p.2 == d)
        = acc.filter (fun p => p.2 == d) ++ l.filter (fun p => p.2 == d) := by
  intro l
  induction l with
  | nil => intro acc _; simp
  | cons x xs ih =>
    intro acc h
    have step := ih (insertDegDesc x acc) (sorted_insertDegDesc h)
    simp only [List.foldl_cons] at step ⊢
    rw [step, filter_insertDegDesc d h, List.filter_cons]
    by_cases hx : x.2 = d <;> simp [hx]

/-- A concrete graph whose four sources were inserted in the order a, b,
c, d with out-degrees five, five, three and one. -/
def topEmittersExample : DependencyGraph :=
  ((((⟨[]⟩ : DependencyGraph).add "a" ["a1", "a2", "a3", "a4", "a5"]).add
      "b" ["b1", "b2", "b3", "b4", "b5"]).add
      "c" ["c1", "c2", "c3"]).add "d" ["d1"]

/-- C3: the top-emitter list holds at most ten sources, is ordered by
descending out-degree, and breaks ties by the order in which sources were
first inserted into the graph (for every degree, the sorted table's
entries of that degree equal the insertion-ordered table's entries of that
degree, in order); in particular for out-degrees five, five, three, one
the two degree-five sources come first in first-seen order, then the
degree-three source, then the degree-one source. -/
theorem top_emitters_spec :
    (∀ g : DependencyGraph, (topEmitters g).length ≤ 10) ∧
    (∀ g : DependencyGraph, List.Sorted DegGE (topEmitters g)) ∧
    (∀ (g : DependencyGraph) (d : Nat),
      (sortByDegDesc (degreeCounter g)).filter (fun p => p.2 == d)
        = (degreeCounter g).filter (fun p => p.2 == d)) ∧
    topEmitters topEmittersExample = [("a", 5), ("b", 5), ("c", 3), ("d", 1)] := by
  refine ⟨?_, ?_, ?_, by decide⟩
  · intro g
    simp [topEmitters, List.length_take]
  · intro g
    exact List.Pairwise.sublist (List.take_sublist _ _) (sorted_sortByDegDesc _)
  · intro g d
    simpa using filter_sortAux d (degreeCounter g) [] (by simp)

/-- The language keys of the per-language graph table. -/
def keysG (gs : List (String × DependencyGraph)) : List String :=
  gs.map (fun p => p.1)

theorem mem_keysG_updateGraphs {l lid rel : String} {deps : List String} :
    ∀ gs : List (String × DependencyGraph),
      l ∈ keysG (updateGraphs gs lid rel deps) ↔ l ∈ keysG gs ∨ l = lid := by
  intro gs
  induction gs with
  | nil => simp [updateGraphs, keysG]
  | cons p rest ih =>
    obtain ⟨k, g⟩ := p
    simp only [keysG, List.map_cons, List.mem_cons] at ih ⊢
    by_cases hk : k = lid
    · subst hk
      have hu : updateGraphs ((k, g) :: rest) k rel deps = (k, g.add rel deps) :: rest := by
        simp [updateGraphs]
      rw [hu]
      simp only [List.map_cons, List.mem_cons]
      tauto
    · have hu : updateGraphs ((k, g) :: rest) lid rel deps
          = (k, g) :: updateGraphs rest lid rel deps := by
        simp [updateGraphs, hk]
      rw [hu]
      simp only [List.map_cons, List.mem_cons]
      rw [ih]
      tauto

/-- The orchestration invariant: a language has a graph exactly when its
file count is positive. -/
def InvState (st : BuildState) : Prop :=
  ∀ l, l ∈ keysG st.graphs ↔ 0 < countsOf st.counts l

theorem invState_buildStep {prim : Grammar} {st st' : BuildState} {f : SrcFile}
    (h : InvState st) (hs : buildStep prim st f = .ok st') : InvState st' := by
  unfold buildStep at hs
  cases ha : analyze_file prim f.suffix f.content with
  | error e => rw [ha] at hs; cases hs
  | ok pr =>
    rw [ha] at hs
    obtain ⟨olid, deps⟩ := pr
    cases olid with
    | none =>
      cases hs
      exact h
    | some lid =>
      cases hs
      intro l
      rw [show (⟨updateGraphs st.graphs lid f.rel deps, bumpCount st.counts lid⟩ :
          BuildState).graphs = updateGraphs st.graphs lid f.rel deps from rfl]
      rw [mem_keysG_updateGraphs st.graphs]
      rw [show (⟨updateGraphs st.graphs lid f.rel deps, bumpCount st.counts lid⟩ :
          BuildState).counts = bumpCount st.counts lid from rfl]
      rw [countsOf_bumpCount]
      by_cases hl : l = lid
      · simp [hl]
      · simp [hl, h l]

theorem invState_build {prim : Grammar} :
    ∀ (fs : List SrcFile) (st st' : BuildState), InvState st →
      build_dependency_graph prim fs st = .ok st' → InvState st' := by
  intro fs
  induction fs with
  | nil =>
    intro st st' h hb
    cases hb
    exact h
  | cons f fs ih =>
    intro st st' h hb
    unfold build_dependency_graph at hb
    cases hstep : buildStep prim st f with
    | error e => rw [hstep] at hb; cases hb
    | ok st1 =>
      rw [hstep] at hb
      exact ih st1 st' (invState_buildStep h hstep) hb

/-- C10: after a completed orchestration pass from the empty state, the
languages owning a graph are exactly the languages with a positive file
count; the summary lists one entry per graph language — zero-edge
languages included — and its total-languages figure is the number of
graphs. -/
theorem graphs_iff_positive_counts (prim : Grammar) (files : List SrcFile)
    (st' : BuildState)
    (h : build_dependency_graph prim files ⟨[], []⟩ = .ok st') :
    (∀ l, l ∈ keysG st'.graphs ↔ 0 < countsOf st'.counts l) ∧
    (summarize_graphs st'.graphs st'.counts).languages.map (fun p => p.1)
      = keysG st'.graphs ∧
    (summarize_graphs st'.graphs st'.counts).totals.languages = st'.graphs.length := by
  refine ⟨invState_build files _ st' (fun l => by simp [keysG, countsOf]) h, ?_, rfl⟩
  simp [summarize_graphs, keysG, List.map_map]

/-- C10 witness: scanning a python file with zero imports plus an
extensionless file yields one python graph with no edges, a python count
of one (so graph presence coincides with positive count), and a summary
reporting one language. -/
theorem graphs_iff_positive_counts_witness :
    ("python" ∈ keysG [("python", (⟨[]⟩ : DependencyGraph))]
      ↔ 0 < countsOf [("python", 1)] "python") ∧
    (summarize_graphs [("python", (⟨[]⟩ : DependencyGraph))]
      [("python", 1)]).totals.languages = 1 := by
  have h := graphs_iff_positive_counts (fun _ _ => .ok [])
    [⟨"a.py", ".py", "x = 1\n"⟩, ⟨"README", "", "hello"⟩]
    ⟨[("python", ⟨[]⟩)], [("python", 1)]⟩ rfl
  exact ⟨h.1 "python", h.2.2⟩

end GenAstDeps
